import Mathlib

/-!
# Verification of the rpm-master-archive metadata reconciliation engine

Shallow embedding of the Python sources under `scripts/` (bag_ingest.py,
fix_sequence_and_id.py, generate_per_bag_ingest.py, utils/atomic_write.py).

Modelling conventions:
* CSV tables are modelled as lists of structured rows (one structure field
  per canonical column); serialization/deserialization of an
  already-canonical table is modelled as the identity.
* A checksum manifest file is modelled as its list of lines, each line
  being the `(digest, path-text)` pair it carries (`f"{h}  {rel_txt}\n"`).
  Digests are opaque hex strings; `line.strip().split(maxsplit=1)[0]`
  re-reads exactly the stored digest, so the digest component is kept
  structured.
* Python `pathlib` resolution (`resolve` / `relative_to`) is not modelled:
  the scan result carries the final relative path text that the script
  would put into a manifest line.
* Regex character classes (`\d`, `[a-z]` under `re.I`) are read in their
  ASCII sense; filenames are ASCII in this archive.
* Machine integers do not occur: all numeric fields are unbounded Python
  ints, modelled as `Nat`.
-/

namespace RPM

/-! ## Checksum manifest store (`bag_ingest.ensure_checksums_append`) -/

/-- One manifest line, as the `(digest, path-text)` pair written by
`rows.append(f"{h}  {rel_txt}\n")`. -/
abbrev ManifestLine := String × String

/-- Model of `ensure_checksums_append` from `scripts/bag_ingest.py` (lines 88-137),
on the manifest's line list.  `old` is the current content of
`data/checksums/<MODEL>.sha256` (empty list if the file is absent);
`input` is the `files_with_hashes` argument, each pair `(rel_txt, h)`
in the code's `(path, hash)` order.

The code loads `existing` (the set of first tokens of the old lines),
keeps only input pairs whose hash is not in `existing`, and, when any
survive, writes the new lines to a temp file and atomically replaces the
manifest with old-content-then-new-lines; when none survive it performs
no write.  Note that `existing` is never extended while the input list
is traversed. -/
def ensure_checksums_append (old : List ManifestLine)
    (input : List (String × String)) : List ManifestLine :=
  let existing := old.map Prod.fst
  let rows := (input.filter (fun ph => !(existing.contains ph.2))).map
    (fun ph => (ph.2, ph.1))
  if rows.isEmpty then old else old ++ rows

/-- The digests appearing in a manifest, one per line, in order. -/
def manifestDigests (m : List ManifestLine) : List String := m.map Prod.fst

/-- The invariant claimed for manifests: no two lines share a digest. -/
def ManifestDigestUnique (m : List ManifestLine) : Prop :=
  (manifestDigests m).Nodup

/-! ## Atomic writer (`scripts/utils/atomic_write.py`) -/

/-- The slice of the filesystem `atomic_write_text` touches: the target
file's content (if it exists) and the scratch temporary file created
next to it (`dir=str(path.parent)`). -/
structure FS where
  target : Option String
  tmp : Option String
deriving DecidableEq

/-- The three externally visible steps of `atomic_write_text(path, text)`:
step 0 creates the fresh temporary file in the target's directory,
step 1 writes `text` into it, step 2 is the single `os.replace`
installing the temporary file as the target. -/
def atomicWriteStep (text : String) : Nat → FS → FS
  | 0, fs => { fs with tmp := some "" }
  | 1, fs => { fs with tmp := some text }
  | 2, fs => { target := fs.tmp, tmp := none }
  | _ + 3, fs => fs

/-- Run the first `k` steps of `atomic_write_text` (execution stopping
after step `k - 1`). -/
def atomicWriteRun (text : String) (fs : FS) (k : Nat) : FS :=
  (List.range k).foldl (fun s i => atomicWriteStep text i s) fs

/-! ## Decimal digits (shared by the schema parser and the repair pass) -/

/-- Numeric value of an ASCII digit character. -/
def digitVal (c : Char) : Nat := c.toNat - 48

/-- The character for a single decimal digit (`str` of a digit). -/
def digitChar : Nat → Char
  | 0 => '0' | 1 => '1' | 2 => '2' | 3 => '3' | 4 => '4'
  | 5 => '5' | 6 => '6' | 7 => '7' | 8 => '8' | 9 => '9'
  | _ + 10 => '*'

/-- Big-endian decimal rendering of a positive number, with explicit
fuel so that the definition is structural (the fuel `n` itself always
suffices since `n / 10` at least halves). -/
def digitsRecAux : Nat → Nat → List Char
  | 0, _ => []
  | fuel + 1, n =>
    if n < 10 then [digitChar n]
    else digitsRecAux fuel (n / 10) ++ [digitChar (n % 10)]

/-- Python `str(n)` for a non-negative int `n`. -/
def natRender (n : Nat) : List Char :=
  if n = 0 then ['0'] else digitsRecAux n n

/-- Python `int(s)` on a string of decimal digits (leading zeros allowed). -/
def natOfDigits (l : List Char) : Nat :=
  l.foldl (fun n c => n * 10 + digitVal c) 0

/-! ## Strict filename schema parser (`bag_ingest.parse_schema`) -/

/-- The extension alternation `(jpg|jpeg|png|webp)` under `re.I`,
anchored by the regex's `$`: the characters after the dot must form one
of the four allowed extensions, compared case-insensitively. -/
def isExt (e : List Char) : Bool :=
  let le := e.map Char.toLower
  le == ['j', 'p', 'g'] || le == ['j', 'p', 'e', 'g'] ||
    le == ['p', 'n', 'g'] || le == ['w', 'e', 'b', 'p']

/-- The fixed-width group prefix `BA\d{4}-\d{3}` of the schema regex,
under `re.I` (so `B` and `A` match either case). -/
def groupOk (b a c1 c2 c3 c4 hy c5 c6 c7 : Char) : Bool :=
  (b == 'B' || b == 'b') && (a == 'A' || a == 'a') &&
    c1.isDigit && c2.isDigit && c3.isDigit && c4.isDigit &&
    hy == '-' && c5.isDigit && c6.isDigit && c7.isDigit

/-- Matching of `SCHEMA = re.compile(r"^(BA\d{4}-\d{3})_([a-z]+)_(\d{2})\.(jpg|jpeg|png|webp)$", re.I)`
against a character list.  The regex is anchored and every variable-width
piece (`[a-z]+` cannot cross the `_` that follows it) is determined by
maximal munch, so a direct decomposition is equivalent to regex search.
Returns `(group text, view text, int(sequence))` on a match. -/
def parseSchemaChars : List Char → Option (List Char × List Char × Nat)
  | b :: a :: c1 :: c2 :: c3 :: c4 :: hy :: c5 :: c6 :: c7 :: u :: rest =>
    if groupOk b a c1 c2 c3 c4 hy c5 c6 c7 && u == '_' then
      if (rest.takeWhile Char.isAlpha).isEmpty then none
      else
        match rest.dropWhile Char.isAlpha with
        | u2 :: n1 :: n2 :: dot :: ext =>
          if u2 == '_' && n1.isDigit && n2.isDigit && dot == '.' && isExt ext then
            some ([b, a, c1, c2, c3, c4, hy, c5, c6, c7].map Char.toUpper,
              (rest.takeWhile Char.isAlpha).map Char.toLower,
              digitVal n1 * 10 + digitVal n2)
          else none
        | _ => none
    else none
  | _ => none

/-- Model of `parse_schema` from `scripts/bag_ingest.py` (lines 66-73): on a match
return `(m.group(1).upper(), m.group(2).lower(), int(m.group(3)))`,
otherwise the sentinel `("", "unknown", 0)`. -/
def parse_schema (name : String) : String × String × Nat :=
  match parseSchemaChars name.data with
  | some (g, v, n) => (String.mk g, String.mk v, n)
  | none => ("", "unknown", 0)

/-- The group shape of the claimed pattern, read case-insensitively as
the regex does: `BA` in either case, four digits, hyphen, three digits. -/
def GroupCI (g : List Char) : Prop :=
  ∃ b a c1 c2 c3 c4 c5 c6 c7,
    g = [b, a, c1, c2, c3, c4, '-', c5, c6, c7] ∧
      (b = 'B' ∨ b = 'b') ∧ (a = 'A' ∨ a = 'a') ∧
      c1.isDigit = true ∧ c2.isDigit = true ∧ c3.isDigit = true ∧
      c4.isDigit = true ∧ c5.isDigit = true ∧ c6.isDigit = true ∧
      c7.isDigit = true

/-- Declarative reading of the schema regex (with its `re.I` flag):
`GROUP_view_NN.ext` with a case-insensitive group code, a nonempty run
of letters of either case, exactly two digits, and an allow-listed
extension compared case-insensitively. -/
def SchemaCIMatch (s : String) : Prop :=
  ∃ g v n1 n2 e, s.data = g ++ '_' :: (v ++ '_' :: n1 :: n2 :: '.' :: e) ∧
    GroupCI g ∧ v ≠ [] ∧ (∀ c ∈ v, c.isAlpha = true) ∧
    n1.isDigit = true ∧ n2.isDigit = true ∧ isExt e = true

/-- The claim's reading of the strict parser: the same shape but with
`B`, `A` required uppercase, the view letters required lowercase and the
extension required lowercase.  Written directly from the claim's words,
to be compared against `parse_schema`. -/
def schemaStrictClaim (s : String) : Bool :=
  match s.data with
  | b :: a :: c1 :: c2 :: c3 :: c4 :: hy :: c5 :: c6 :: c7 :: u :: rest =>
    if (b == 'B') && (a == 'A') &&
        c1.isDigit && c2.isDigit && c3.isDigit && c4.isDigit &&
        hy == '-' && c5.isDigit && c6.isDigit && c7.isDigit && u == '_' then
      let v := rest.takeWhile Char.isLower
      let rest2 := rest.dropWhile Char.isLower
      if v.isEmpty then false
      else
        match rest2 with
        | u2 :: n1 :: n2 :: dot :: ext =>
          u2 == '_' && n1.isDigit && n2.isDigit && dot == '.' &&
            (ext == ['j', 'p', 'g'] || ext == ['j', 'p', 'e', 'g'] ||
              ext == ['p', 'n', 'g'] || ext == ['w', 'e', 'b', 'p'])
        | _ => false
    else false
  | _ => false

/-! ## Master metadata table rows -/

/-- One row of `data/master_metadata.csv` in the canonical column order
`MASTER_COLUMNS` of `scripts/bag_ingest.py`.  Textual columns are
strings; `width`, `height`, `filesize` are ints. -/
structure Row where
  id : String
  filename : String
  model : String
  viewtype : String
  sequence : String
  width : Nat
  height : Nat
  filesize : Nat
  sha256 : String
  processed_at : String
  source : String
  uid : String
  sha256_manifest_path : String
  notes : String
deriving DecidableEq, Repr

/-! ## Sequence/id repair pass (`scripts/fix_sequence_and_id.py`) -/

/-- Python `str.replace(r"\.0$", "", regex=True)`: drop one trailing `.0`. -/
def stripDotZero (s : List Char) : List Char :=
  if s.length ≥ 2 ∧ s.drop (s.length - 2) = ['.', '0'] then
    s.take (s.length - 2)
  else s

/-- Python `str.extract(r"(\d+)")`: the first maximal run of digits anywhere in
the string, or `none` if the string has no digit. -/
def firstDigitRun : List Char → Option (List Char)
  | [] => none
  | c :: rest =>
    if c.isDigit then some (c :: rest.takeWhile Char.isDigit)
    else firstDigitRun rest

/-- Python `str.zfill(2)` on an unsigned digit string: left-pad with `'0'` to
width two. -/
def zfill2 (s : List Char) : List Char :=
  if s.length < 2 then List.replicate (2 - s.length) '0' ++ s else s

/-- The sequence-column normalization of `fix_sequence_and_id.main`
(lines 24-26): cast to string, strip a trailing `.0`, extract the first
digit run (`fillna("0")` when there is none), cast through `int` and
back to string, and zero-fill to two characters. -/
def normSeq (s : String) : String :=
  let d := (firstDigitRun (stripDotZero s.data)).getD ['0']
  String.mk (zfill2 (natRender (natOfDigits d)))

/-- One row of the repair pass of `fix_sequence_and_id.main`: the
sequence column is normalized first; then, where model, viewtype and
(normalized) sequence are all nonempty strings, `id` is rebuilt as
`{model}_{viewtype}_{sequence}_{sha8}` with `sha8 = sha256[:8]`. -/
def fixRow (r : Row) : Row :=
  let seq := normSeq r.sequence
  let can := decide (0 < r.model.length) && decide (0 < r.viewtype.length) &&
    decide (0 < seq.length)
  { r with
    sequence := seq
    id := if can then
        r.model ++ "_" ++ r.viewtype ++ "_" ++ seq ++ "_" ++ r.sha256.take 8
      else r.id }

/-- The stable-sort key `["model", "viewtype", "sequence", "filename"]`
shared by `fix_sequence_and_id.main` and `bag_ingest.main`
(lexicographic across the four columns). -/
def rowKey (r : Row) : String ×ₗ (String ×ₗ (String ×ₗ String)) :=
  toLex (r.model, toLex (r.viewtype, toLex (r.sequence, r.filename)))

/-- Row comparison used by the stable sorts. -/
def rowLe (a b : Row) : Prop := rowKey a ≤ rowKey b

instance : DecidableRel rowLe := fun a b =>
  inferInstanceAs (Decidable (rowKey a ≤ rowKey b))

instance : IsTotal Row rowLe := ⟨fun a b => le_total (rowKey a) (rowKey b)⟩

instance : IsTrans Row rowLe := ⟨fun _ _ _ h h' => le_trans h h'⟩

/-- Model of `df.sort_values(by=["model","viewtype","sequence","filename"], kind="stable")`:
insertion sort is stable for `rowLe`, so it models pandas' stable sort. -/
def stableSortRows (t : List Row) : List Row := t.insertionSort rowLe

/-- The whole repair pass of `fix_sequence_and_id.main` on the loaded
table: normalize the sequence column and rebuild ids (row by row), then
stable-sort; the result is serialized in full and atomically written
back over `data/master_metadata.csv`. -/
def fixPass (t : List Row) : List Row := stableSortRows (t.map fixRow)

/-! ## Reconciliation driver (`bag_ingest.main`) -/

/-- A candidate file discovered by the scan (an entry of some
`photos/` directory whose suffix is in `EXTS`), together with the data
the driver reads from it: its digest (`sha256_file`), image dimensions
(`get_dims`, already degraded to `(0, 0)` when unreadable), byte size,
and the relative path text that would label its manifest line. -/
structure ScanFile where
  name : String
  path : String
  sha : String
  width : Nat
  height : Nat
  size : Nat
deriving DecidableEq, Repr

/-- Pandas `(existing["sha256"] == sha).any()`. -/
def shaPresent (t : List Row) (sha : String) : Bool :=
  t.any (fun r => r.sha256 == sha)

/-- Python `f"{n:02d}"`. -/
def pad2 (n : Nat) : String := String.mk (zfill2 (natRender n))

/-- The new `Row` assembled for one conforming scanned file
(`bag_ingest.main`, lines 219-245). -/
def mkIngestRow (source now : String) (f : ScanFile) : Row :=
  let p := parse_schema f.name
  { id := p.1 ++ "_" ++ p.2.1 ++ "_" ++ pad2 p.2.2 ++ "_" ++ f.sha.take 8
    filename := f.name
    model := p.1
    viewtype := p.2.1
    sequence := pad2 p.2.2
    width := f.width
    height := f.height
    filesize := f.size
    sha256 := f.sha
    processed_at := now
    source := source
    uid := ""
    sha256_manifest_path := ""
    notes := "" }

/-- The scan loop of `bag_ingest.main`: skip files whose name does not
parse (`if not model: continue`), then skip files whose digest is
already in the loaded master (`if (existing["sha256"] == sha).any()`),
and collect a new row for the rest.  The digest check is only against
the loaded table, never against rows collected earlier in the run. -/
def newRowsOf (existing : List Row) (source now : String)
    (files : List ScanFile) : List Row :=
  files.filterMap (fun f =>
    if (parse_schema f.name).1 == "" then none
    else if shaPresent existing f.sha then none
    else some (mkIngestRow source now f))

/-- Assignment `file_map[p.name] = p`: dictionary assignment, so a later file with
the same base name overwrites an earlier one. -/
def lastPathFor (files : List ScanFile) (name : String) : Option String :=
  ((files.filter (fun f => f.name == name)).getLast?).map (·.path)

/-- The `(model, path, sha)` triples fed into `by_model`
(`bag_ingest.main`, lines 268-273), skipping rows whose filename is
missing from `file_map`. -/
def pairsAll (rows : List Row) (files : List ScanFile) :
    List (String × String × String) :=
  rows.filterMap (fun r =>
    (lastPathFor files r.filename).map (fun p => (r.model, p, r.sha256)))

/-- The keys of the insertion-ordered dict `by_model`, in first-seen
order. -/
def modelsOf (ps : List (String × String × String)) : List String :=
  ps.foldl (fun acc x => if acc.contains x.1 then acc else acc ++ [x.1]) []

/-- The `(path, sha)` value list of `by_model` for one model. -/
def pairsFor (ps : List (String × String × String)) (m : String) :
    List (String × String) :=
  (ps.filter (fun x => x.1 == m)).map (fun x => x.2)

/-- The manifest path `data/checksums/<MODEL>.sha256` returned by
`ensure_checksums_append` (as an absolute posix path under the repo
root). -/
def manifestPath (root model : String) : String :=
  root ++ "/data/checksums/" ++ model ++ ".sha256"

/-- Pandas `drop_duplicates(subset=["sha256"], keep="first")`, with the set of
digests already kept carried in `seen`. -/
def dedupByShaAux (seen : List String) : List Row → List Row
  | [] => []
  | r :: rest =>
    if seen.contains r.sha256 then dedupByShaAux seen rest
    else r :: dedupByShaAux (r.sha256 :: seen) rest

/-- Pandas `combined.drop_duplicates(subset=["sha256"], keep="first")`. -/
def dedupBySha (t : List Row) : List Row := dedupByShaAux [] t

/-- The table merge of `bag_ingest.main` (lines 286-288): concatenate
existing rows before incoming rows, then deduplicate by `sha256`
keeping the first occurrence. -/
def merge (existing incoming : List Row) : List Row :=
  dedupBySha (existing ++ incoming)

/-- One row of the narrower 11-column schema `MASTER_CSV_HEADER` that
`generate_per_bag_ingest.py` writes to the same
`data/master_metadata.csv`. -/
structure PerBagRow where
  id : String
  filename : String
  model : String
  viewtype : String
  sequence : String
  width : Nat
  height : Nat
  filesize : Nat
  sha256 : String
  processed_at : String
  notes : String
deriving DecidableEq, Repr

/-- A write performed on the master table file, as one of the two
mechanisms found in the source: a full rewrite of the serialized table
installed through `atomic_write_text`, or an `open(csv_path, "a")`
append of a single row after the existing content. -/
inductive MasterWrite where
  /-- Python `atomic_write_text(master_csv, full_table.to_csv(index=False))`:
  a full rewrite of the serialized table installed by the atomic
  writer. -/
  | atomicRewrite (table : List Row)
  /-- Python `open(csv_path, "a")` followed by `writer.writerow(row)`:
  one narrow-schema row appended after the existing bytes. -/
  | appendRow (row : PerBagRow)

/-- Whether a master-table write is a full atomic rewrite. -/
def isFullAtomicRewrite : MasterWrite → Bool
  | .atomicRewrite _ => true
  | .appendRow _ => false

/-- The outcome of one `bag_ingest.main` run. -/
structure IngestResult where
  /-- Content of the master table file after the run. -/
  master : List Row
  /-- Content of each group's manifest file after the run. -/
  manifests : String → List ManifestLine
  /-- `len(new_rows)`, the count reported by the run. -/
  newRows : Nat
  /-- The write the run performed on the master table file, if any. -/
  masterWrite : Option MasterWrite

/-- Model of `bag_ingest.main` after argument parsing, over the scanned files:

* build `new_rows` against the loaded master;
* if none, stop — nothing on disk is touched;
* otherwise group the new rows by model, run `ensure_checksums_append`
  for each group (this happens **before** the `--dry-run` check), stamp
  `sha256_manifest_path`, merge, stable-sort, and — unless `dryRun` —
  atomically rewrite the master with the full sorted table. -/
def ingestRun (existing : List Row) (manifests : String → List ManifestLine)
    (files : List ScanFile) (source now root : String) (dryRun : Bool) :
    IngestResult :=
  let newRows := newRowsOf existing source now files
  if newRows.isEmpty then
    { master := existing, manifests := manifests, newRows := 0,
      masterWrite := none }
  else
    let ps := pairsAll newRows files
    let models := modelsOf ps
    let manifests' := fun m =>
      if models.contains m then ensure_checksums_append (manifests m) (pairsFor ps m)
      else manifests m
    let stamped := newRows.map (fun r =>
      { r with sha256_manifest_path :=
          if models.contains r.model then manifestPath root r.model else "" })
    let sorted := stableSortRows (merge existing stamped)
    if dryRun then
      { master := existing, manifests := manifests',
        newRows := newRows.length, masterWrite := none }
    else
      { master := sorted, manifests := manifests',
        newRows := newRows.length,
        masterWrite := some (MasterWrite.atomicRewrite sorted) }

/-! ## Narrow-schema per-bag ingest (`scripts/generate_per_bag_ingest.py`) -/

/-- Model of `append_row_to_csv` from `generate_per_bag_ingest.py` (lines
100-106): open the master CSV in append mode (`"a"`) and write one more
row after whatever is already there (writing the header first only when
the file did not exist).  The prior content is left in place
byte-for-byte; nothing is rewritten. -/
def append_row_to_csv (old : List PerBagRow) (row : PerBagRow) :
    List PerBagRow :=
  old ++ [row]

/-- The master-file write performed by `generate_per_bag_ingest.main`
for one new, non-duplicate file (line 201): a call to
`append_row_to_csv(str(master_csv), row, MASTER_CSV_HEADER)`, i.e. an
in-place append, not an atomic rewrite. -/
def perBagMasterOp (row : PerBagRow) : MasterWrite := MasterWrite.appendRow row

/-- The master-file write performed by `fix_sequence_and_id.main`
(line 48): `atomic_write_text(MASTER, df.to_csv(index=False))` with the
fully repaired, fully serialized table. -/
def fixPassWrite (t : List Row) : MasterWrite :=
  MasterWrite.atomicRewrite (fixPass t)

/-! ## Legacy-table migration (`scripts/migrate_master_to_canonical.py`) -/

/-- The persist stage of `migrate_master_to_canonical.main` (lines
156-170): the migration loop builds one canonical row per legacy row
(reading the legacy CSV and, for missing digests, the files on disk —
external inputs abstracted as the built row list, as with the scan);
the script then deduplicates by `sha256` keeping the first occurrence,
stable-sorts by the canonical key, backs up the old file, and hands the
full serialized table to `atomic_write_text`.  It never appends. -/
def migrateMasterOp (rows : List Row) : MasterWrite :=
  MasterWrite.atomicRewrite (stableSortRows (dedupBySha rows))

/-! ## Filename-based repair (`scripts/repair_master_from_filename.py`) -/

/-- Matching of `SCHEMA_ANYWHERE = re.compile(r"(BA\d{4}-\d{3})_([a-z]+)_(\d{2})\.[a-z0-9]+", re.I)`
at the head of a character list.  Same shape as the strict schema but
unanchored at the end: after the dot one alphanumeric character
suffices (the `[a-z0-9]+` run extends greedily but is not captured).
As with the strict regex, no per-position backtracking can rescue a
failed attempt, so maximal munch is exact. -/
def matchLooseAt : List Char → Option (List Char × List Char × Nat)
  | b :: a :: c1 :: c2 :: c3 :: c4 :: hy :: c5 :: c6 :: c7 :: u :: rest =>
    if groupOk b a c1 c2 c3 c4 hy c5 c6 c7 && u == '_' then
      if (rest.takeWhile Char.isAlpha).isEmpty then none
      else
        match rest.dropWhile Char.isAlpha with
        | u2 :: n1 :: n2 :: dot :: ext =>
          if u2 == '_' && n1.isDigit && n2.isDigit && dot == '.' &&
              (match ext with
               | e1 :: _ => e1.isAlphanum
               | [] => false) then
            some ([b, a, c1, c2, c3, c4, hy, c5, c6, c7].map Char.toUpper,
              (rest.takeWhile Char.isAlpha).map Char.toLower,
              digitVal n1 * 10 + digitVal n2)
          else none
        | _ => none
    else none
  | _ => none

/-- Python `re.search` over `SCHEMA_ANYWHERE`: try every start
position from the left and return the leftmost match. -/
def searchLoose : List Char → Option (List Char × List Char × Nat)
  | [] => none
  | c :: rest =>
    (matchLooseAt (c :: rest)).orElse (fun _ => searchLoose rest)

/-- Model of `parse_any` from `repair_master_from_filename.py` (lines
16-21): search the loose pattern anywhere in the string; on a match
return `(m.group(1).upper(), m.group(2).lower(), f"{int(m.group(3)):02d}")`,
otherwise `None`. -/
def parse_any (s : String) : Option (String × String × String) :=
  match searchLoose s.data with
  | some (g, v, n) => some (String.mk g, String.mk v, pad2 n)
  | none => none

/-- Python `str.isdigit()`: nonempty and all decimal digits. -/
def isDigitString (s : String) : Bool :=
  !s.data.isEmpty && s.data.all Char.isDigit

/-- One row of the repair loop of `repair_master_from_filename.main`
(lines 35-55): if the filename parses loosely, fill `model` when empty,
`viewtype` when empty or `"unknown"`, and `sequence` when it is not a
digit string or parses to zero; otherwise leave the row unchanged. -/
def repairRow (r : Row) : Row :=
  match parse_any r.filename with
  | none => r
  | some (m, v, sq) =>
    { r with
      model := if r.model = "" then m else r.model
      viewtype :=
        if r.viewtype = "" ∨ r.viewtype = "unknown" then v else r.viewtype
      sequence :=
        if isDigitString r.sequence = false ∨ natOfDigits r.sequence.data = 0
        then sq else r.sequence }

/-- The master-file write of `repair_master_from_filename.main` (line
58): the loaded table, repaired row by row in place with column order
kept, serialized in full and handed to `atomic_write_text`.  It never
appends. -/
def repairMasterOp (t : List Row) : MasterWrite :=
  MasterWrite.atomicRewrite (t.map repairRow)

/-! ## Sample data for concrete instantiations -/

/-- A sample master-table row (pre-repair: `sequence` not yet
normalized, `id` stale). -/
def sampleRowA : Row :=
  { id := "stale", filename := "BA2037-089_front_03.jpg",
    model := "BA2037-089", viewtype := "front", sequence := "3.0",
    width := 10, height := 20, filesize := 5,
    sha256 := "0123456789abcdef", processed_at := "2026-01-01T00:00:00+00:00",
    source := "local_ingest", uid := "", sha256_manifest_path := "",
    notes := "" }

/-- A second sample row carrying the same digest as `sampleRowA` but a
different filename. -/
def sampleRowB : Row :=
  { sampleRowA with
    id := "other"
    filename := "BA2037-089_back_01.jpg"
    viewtype := "back"
    sequence := "01" }

/-- A sample narrow-schema row as built by `generate_per_bag_ingest`. -/
def samplePerBagRow : PerBagRow :=
  { id := "BA2037-089_01_BA2037-089_front_01.jpg",
    filename := "data/photos/BA2037-089/BA2037-089_front_01.jpg",
    model := "BA2037-089", viewtype := "front", sequence := "01",
    width := 10, height := 20, filesize := 5,
    sha256 := "fedcba9876543210", processed_at := "2026-01-01T00:00:00Z",
    notes := "" }

/-- A sample scanned file conforming to the naming schema. -/
def sampleScanA : ScanFile :=
  { name := "BA2037-089_front_01.jpg",
    path := "data/02_Models/BA2037-089/photos/BA2037-089_front_01.jpg",
    sha := "d100000000000000", width := 10, height := 20, size := 5 }

/-! ## Helper lemmas on lists and digits -/

theorem takeWhile_append_all {p : Char → Bool} {xs : List Char}
    (ys : List Char) (h : ∀ c ∈ xs, p c = true) :
    (xs ++ ys).takeWhile p = xs ++ ys.takeWhile p := by
  induction xs with
  | nil => simp
  | cons x xs ih =>
    have hx : p x = true := h x (List.mem_cons_self x xs)
    simp only [List.cons_append, List.takeWhile_cons, hx, if_true]
    rw [ih (fun c hc => h c (List.mem_cons_of_mem x hc))]

theorem dropWhile_append_all {p : Char → Bool} {xs : List Char}
    (ys : List Char) (h : ∀ c ∈ xs, p c = true) :
    (xs ++ ys).dropWhile p = ys.dropWhile p := by
  induction xs with
  | nil => simp
  | cons x xs ih =>
    have hx : p x = true := h x (List.mem_cons_self x xs)
    simp only [List.cons_append, List.dropWhile_cons, hx, if_true]
    exact ih (fun c hc => h c (List.mem_cons_of_mem x hc))

theorem takeWhile_eq_nil_of_head {p : Char → Bool} {ys : List Char}
    (h : ∀ c, ys.head? = some c → p c = false) :
    ys.takeWhile p = [] := by
  cases ys with
  | nil => rfl
  | cons y ys => simp [List.takeWhile_cons, h y rfl]

theorem dropWhile_eq_self_of_head {p : Char → Bool} {ys : List Char}
    (h : ∀ c, ys.head? = some c → p c = false) :
    ys.dropWhile p = ys := by
  cases ys with
  | nil => rfl
  | cons y ys => simp [List.dropWhile_cons, h y rfl]

theorem takeWhile_eq_self_of_all {p : Char → Bool} {xs : List Char}
    (h : ∀ c ∈ xs, p c = true) : xs.takeWhile p = xs := by
  have := @takeWhile_append_all p xs [] h
  simpa using this

theorem map_eq_self_of_mem {α : Type} {f : α → α} {l : List α}
    (h : ∀ x ∈ l, f x = x) : l.map f = l := by
  induction l with
  | nil => rfl
  | cons x xs ih =>
    simp only [List.map_cons, h x (List.mem_cons_self x xs)]
    rw [ih (fun y hy => h y (List.mem_cons_of_mem x hy))]

theorem digitVal_digitChar {n : Nat} (h : n < 10) :
    digitVal (digitChar n) = n := by
  interval_cases n <;> rfl

theorem isDigit_digitChar {n : Nat} (h : n < 10) :
    (digitChar n).isDigit = true := by
  interval_cases n <;> rfl

theorem natOfDigits_concat (l : List Char) (c : Char) :
    natOfDigits (l ++ [c]) = natOfDigits l * 10 + digitVal c := by
  simp [natOfDigits, List.foldl_append]

theorem natOfDigits_replicate_zero (k : Nat) (l : List Char) :
    natOfDigits (List.replicate k '0' ++ l) = natOfDigits l := by
  induction k with
  | zero => rfl
  | succ k ih =>
    simpa [List.replicate_succ, natOfDigits, digitVal] using ih

theorem digitsRecAux_spec : ∀ fuel n, 0 < n → n ≤ fuel →
    natOfDigits (digitsRecAux fuel n) = n ∧
      (∀ c ∈ digitsRecAux fuel n, c.isDigit = true) ∧
      digitsRecAux fuel n ≠ [] := by
  intro fuel
  induction fuel with
  | zero => intro n h1 h2; omega
  | succ fuel ih =>
    intro n h1 h2
    by_cases h10 : n < 10
    · refine ⟨?_, ?_, ?_⟩ <;> simp [digitsRecAux, h10, natOfDigits,
        digitVal_digitChar h10, isDigit_digitChar h10]
    · have hm : 0 < n / 10 := Nat.div_pos (by omega) (by omega)
      have hlt : n / 10 < n := Nat.div_lt_self h1 (by omega)
      obtain ⟨ihv, ihd, _⟩ := ih (n / 10) hm (by omega)
      refine ⟨?_, ?_, ?_⟩
      · simp only [digitsRecAux, if_neg h10]
        rw [natOfDigits_concat, ihv, digitVal_digitChar (Nat.mod_lt n (by omega))]
        omega
      · simp only [digitsRecAux, if_neg h10]
        intro c hc
        rcases List.mem_append.mp hc with h | h
        · exact ihd c h
        · simp only [List.mem_singleton] at h
          subst h
          exact isDigit_digitChar (Nat.mod_lt n (by omega))
      · simp [digitsRecAux, if_neg h10]

theorem natOfDigits_natRender (n : Nat) : natOfDigits (natRender n) = n := by
  by_cases h : n = 0
  · subst h; rfl
  · simpa [natRender, h] using (digitsRecAux_spec n n (by omega) le_rfl).1

theorem natRender_digits {n : Nat} : ∀ c ∈ natRender n, c.isDigit = true := by
  by_cases h : n = 0
  · subst h; intro c hc; simp [natRender] at hc; subst hc; rfl
  · simpa [natRender, h] using (digitsRecAux_spec n n (by omega) le_rfl).2.1

theorem natRender_ne_nil (n : Nat) : natRender n ≠ [] := by
  by_cases h : n = 0
  · subst h; simp [natRender]
  · simpa [natRender, h] using (digitsRecAux_spec n n (by omega) le_rfl).2.2

theorem zfill2_eq (s : List Char) :
    zfill2 s = List.replicate (2 - s.length) '0' ++ s := by
  by_cases h : s.length < 2
  · simp [zfill2, h]
  · have : 2 - s.length = 0 := by omega
    simp [zfill2, h, this]

theorem natOfDigits_zfill2 (s : List Char) :
    natOfDigits (zfill2 s) = natOfDigits s := by
  rw [zfill2_eq, natOfDigits_replicate_zero]

theorem zfill2_digits {s : List Char} (h : ∀ c ∈ s, c.isDigit = true) :
    ∀ c ∈ zfill2 s, c.isDigit = true := by
  rw [zfill2_eq]
  intro c hc
  rcases List.mem_append.mp hc with h' | h'
  · have := List.eq_of_mem_replicate h'
    subst this; rfl
  · exact h c h'

theorem zfill2_length (s : List Char) : 2 ≤ (zfill2 s).length := by
  rw [zfill2_eq]
  simp only [List.length_append, List.length_replicate]
  omega

theorem zfill2_ne_nil (s : List Char) : zfill2 s ≠ [] := by
  intro h
  have := zfill2_length s
  rw [h] at this
  simp at this

theorem shaPresent_iff {t : List Row} {s : String} :
    shaPresent t s = true ↔ ∃ r ∈ t, r.sha256 = s := by
  simp [shaPresent, List.any_eq_true]

theorem dedupByShaAux_sha_mem {s : String} :
    ∀ (l : List Row) (seen : List String), s ∉ seen →
      ((∃ r ∈ dedupByShaAux seen l, r.sha256 = s) ↔ ∃ r ∈ l, r.sha256 = s) := by
  intro l
  induction l with
  | nil => intro seen _; simp [dedupByShaAux]
  | cons r rest ih =>
    intro seen hs
    by_cases hc : seen.contains r.sha256
    · have hrs : r.sha256 ≠ s := by
        intro h
        exact hs (h ▸ List.elem_iff.mp hc)
      simp only [dedupByShaAux, hc, if_true]
      rw [ih seen hs]
      constructor
      · intro ⟨r', hr', he⟩; exact ⟨r', List.mem_cons_of_mem r hr', he⟩
      · intro ⟨r', hr', he⟩
        rcases List.mem_cons.mp hr' with h | h
        · exact absurd (h ▸ he) hrs
        · exact ⟨r', h, he⟩
    · simp only [dedupByShaAux, hc, if_false, Bool.false_eq_true]
      by_cases hrs : r.sha256 = s
      · constructor
        · intro _; exact ⟨r, List.mem_cons_self r rest, hrs⟩
        · intro _; exact ⟨r, List.mem_cons_self r _, hrs⟩
      · have hs' : s ∉ r.sha256 :: seen := by
          intro h
          rcases List.mem_cons.mp h with h | h
          · exact hrs h.symm
          · exact hs h
        constructor
        · intro ⟨r', hr', he⟩
          rcases List.mem_cons.mp hr' with h | h
          · exact absurd (h ▸ he) hrs
          · rcases (ih _ hs').mp ⟨r', h, he⟩ with ⟨r'', hr'', he''⟩
            exact ⟨r'', List.mem_cons_of_mem r hr'', he''⟩
        · intro ⟨r', hr', he⟩
          rcases List.mem_cons.mp hr' with h | h
          · exact absurd (h ▸ he) hrs
          · rcases (ih _ hs').mpr ⟨r', h, he⟩ with ⟨r'', hr'', he''⟩
            exact ⟨r'', List.mem_cons_of_mem r hr'', he''⟩

theorem dedupBySha_sha_mem {s : String} (l : List Row) :
    (∃ r ∈ dedupBySha l, r.sha256 = s) ↔ ∃ r ∈ l, r.sha256 = s :=
  dedupByShaAux_sha_mem l [] (by simp)

theorem dedupByShaAux_find? {s : String} :
    ∀ (l : List Row) (seen : List String), s ∉ seen →
      (dedupByShaAux seen l).find? (fun r => r.sha256 == s) =
        l.find? (fun r => r.sha256 == s) := by
  intro l
  induction l with
  | nil => intro seen _; simp [dedupByShaAux]
  | cons r rest ih =>
    intro seen hs
    by_cases hc : seen.contains r.sha256
    · have hrs : (r.sha256 == s) = false := by
        simp only [beq_eq_false_iff_ne, ne_eq]
        intro h
        exact hs (h ▸ List.elem_iff.mp hc)
      simp only [dedupByShaAux, hc, if_true]
      rw [ih seen hs, List.find?_cons, hrs]
    · simp only [dedupByShaAux, hc, if_false, Bool.false_eq_true]
      by_cases hrs : r.sha256 = s
      · simp [List.find?_cons, hrs]
      · have hs' : s ∉ r.sha256 :: seen := by
          intro h
          rcases List.mem_cons.mp h with h | h
          · exact hrs h.symm
          · exact hs h
        have hb : (r.sha256 == s) = false := by
          simp [beq_eq_false_iff_ne, hrs]
        simp only [List.find?_cons, hb]
        exact ih _ hs'

theorem dedupByShaAux_nodup :
    ∀ (l : List Row) (seen : List String),
      ((dedupByShaAux seen l).map Row.sha256).Nodup ∧
        ∀ r ∈ dedupByShaAux seen l, r.sha256 ∉ seen := by
  intro l
  induction l with
  | nil => intro seen; simp [dedupByShaAux]
  | cons r rest ih =>
    intro seen
    by_cases hc : seen.contains r.sha256
    · simpa only [dedupByShaAux, hc, if_true] using ih seen
    · obtain ⟨ihn, ihs⟩ := ih (r.sha256 :: seen)
      simp only [dedupByShaAux, hc, if_false, Bool.false_eq_true]
      constructor
      · simp only [List.map_cons, List.nodup_cons]
        refine ⟨?_, ihn⟩
        intro hmem
        rcases List.mem_map.mp hmem with ⟨r', hr', he⟩
        exact ihs r' hr' (by rw [← he]; exact List.mem_cons_self _ _)
      · intro r' hr'
        rcases List.mem_cons.mp hr' with h | h
        · rw [h]
          simpa using hc
        · intro hm
          exact ihs r' h (List.mem_cons_of_mem _ hm)

theorem find?_append_of_none {p : Row → Bool} {l₁ : List Row}
    (l₂ : List Row) (h : ∀ r ∈ l₁, p r = false) :
    (l₁ ++ l₂).find? p = l₂.find? p := by
  induction l₁ with
  | nil => rfl
  | cons r rest ih =>
    have hr := h r (List.mem_cons_self r rest)
    have ih' := ih (fun r' hr' => h r' (List.mem_cons_of_mem r hr'))
    simp [List.find?_cons, hr, ih']

theorem countSha_eq_count (t : List Row) (s : String) :
    t.countP (fun r => r.sha256 == s) = (t.map Row.sha256).count s := by
  induction t with
  | nil => rfl
  | cons r rest ih =>
    simp only [List.countP_cons, List.map_cons, List.count_cons, ih]

/-! ## Claim theorems -/

/-- Closed form of `ensure_checksums_append`: the old lines first,
byte-for-byte, then one line per input entry whose digest was not
already present, in input order. -/
theorem ensure_checksums_append_eq (old : List ManifestLine)
    (input : List (String × String)) :
    ensure_checksums_append old input =
      old ++ (input.filter
        (fun ph => !((old.map Prod.fst).contains ph.2))).map
          (fun ph => (ph.2, ph.1)) := by
  simp only [ensure_checksums_append]
  split
  · next he =>
    rw [List.isEmpty_iff] at he
    rw [he, List.append_nil]
  · rfl

/-- C2 (counterexample): the claim fails as stated.  With an empty prior
manifest and an input list containing two entries with equal digest
`"d"`, `ensure_checksums_append` writes two lines with that digest: the
already-present filter never sees digests added earlier in the same
batch. -/
theorem C2_counterexample :
    ¬ ManifestDigestUnique
      (ensure_checksums_append [] [("p1", "d"), ("p2", "d")]) := by
  unfold ManifestDigestUnique manifestDigests
  decide

/-- C2 (amended): if the prior manifest has pairwise-distinct digests
and the input list's digests are themselves pairwise distinct, then
after `ensure_checksums_append` the manifest still has at most one line
per digest. -/
theorem C2_amended_manifest_digest_unique (old : List ManifestLine)
    (input : List (String × String))
    (hold : ManifestDigestUnique old)
    (hin : (input.map Prod.snd).Nodup) :
    ManifestDigestUnique (ensure_checksums_append old input) := by
  unfold ManifestDigestUnique manifestDigests at *
  rw [ensure_checksums_append_eq, List.map_append, List.nodup_append]
  have hmap : ((input.filter
      (fun ph => !((old.map Prod.fst).contains ph.2))).map
        (fun ph => ((ph.2, ph.1) : ManifestLine))).map Prod.fst =
      (input.filter
        (fun ph => !((old.map Prod.fst).contains ph.2))).map Prod.snd := by
    rw [List.map_map]; rfl
  refine ⟨hold, ?_, ?_⟩
  · rw [hmap]
    exact List.Nodup.sublist ((List.filter_sublist _).map Prod.snd) hin
  · intro d hd1
    rw [hmap]
    intro hd2
    rcases List.mem_map.mp hd2 with ⟨ph, hph, he2⟩
    have hf := List.mem_filter.mp hph
    have hnc : ph.2 ∉ old.map Prod.fst := by simpa using hf.2
    exact hnc (he2 ▸ hd1)

/-- C2 (amended, witness): concrete instance of the amended statement:
with prior manifest `[("a", "pa")]` and one fresh digest `"b"`, the
result still has pairwise-distinct digests. -/
theorem C2_amended_witness :
    ManifestDigestUnique (ensure_checksums_append [("a", "pa")] [("pb", "b")]) :=
  C2_amended_manifest_digest_unique [("a", "pa")] [("pb", "b")]
    (by unfold ManifestDigestUnique manifestDigests; decide) (by decide)

/-- C4 (confirmed): `atomic_write_text` writes the content to a fresh
temporary file next to the target and installs it with a single rename
(step 2); stopping after any prefix of steps before the rename leaves
the target's bytes exactly as before the call, and after the rename the
target holds exactly the new content. -/
theorem C4_atomic_write (text : String) (fs : FS) :
    (∀ k, k ≤ 2 → (atomicWriteRun text fs k).target = fs.target) ∧
      (atomicWriteRun text fs 3).target = some text := by
  constructor
  · intro k hk
    interval_cases k <;> rfl
  · rfl

/-- C4 (witness): with original target content `"orig"`, stopping after
the temporary file is fully written but before the rename leaves
`"orig"` in place; completing the run installs `"new"`. -/
theorem C4_atomic_write_witness :
    (atomicWriteRun "new" ⟨some "orig", none⟩ 2).target = some "orig" ∧
      (atomicWriteRun "new" ⟨some "orig", none⟩ 3).target = some "new" :=
  ⟨(C4_atomic_write "new" ⟨some "orig", none⟩).1 2 (by decide),
    (C4_atomic_write "new" ⟨some "orig", none⟩).2⟩

/-- C6 (confirmed): `ensure_checksums_append` filters out every input
digest already present in the manifest; the result is always the old
content first, byte-for-byte, followed by exactly one line per
remaining entry in input order; and when nothing remains the manifest
is left unchanged (no write). -/
theorem C6_manifest_append (old : List ManifestLine)
    (input : List (String × String)) :
    ensure_checksums_append old input =
      old ++ (input.filter
        (fun ph => !((old.map Prod.fst).contains ph.2))).map
          (fun ph => (ph.2, ph.1)) ∧
    ((input.filter (fun ph => !((old.map Prod.fst).contains ph.2))) = [] →
      ensure_checksums_append old input = old) := by
  refine ⟨ensure_checksums_append_eq old input, ?_⟩
  intro h
  rw [ensure_checksums_append_eq, h, List.map_nil, List.append_nil]

/-- C6 (witness): appending a digest already present (`"a"`) performs
no write — the manifest bytes are unchanged. -/
theorem C6_manifest_append_witness :
    ensure_checksums_append [("a", "pa")] [("pa2", "a")] = [("a", "pa")] :=
  (C6_manifest_append [("a", "pa")] [("pa2", "a")]).2 (by decide)

/-- C8 (counterexample): the claim fails as stated.  The
`generate_per_bag_ingest` entry point updates the master table file by
an incremental append (`open(..., "a")`): its write is not a full
atomic rewrite, and `append_row_to_csv` leaves the prior content in
place and appends one row after it. -/
theorem C8_counterexample :
    isFullAtomicRewrite (perBagMasterOp samplePerBagRow) = false ∧
      append_row_to_csv [samplePerBagRow] samplePerBagRow =
        [samplePerBagRow, samplePerBagRow] :=
  ⟨rfl, rfl⟩

/-- C8 (amended): every entry point that updates the master table —
the reconciliation driver (`bag_ingest.main`), the sequence/id repair
pass (`fix_sequence_and_id.main`), the legacy migration
(`migrate_master_to_canonical.main`), and the filename-based repair
(`repair_master_from_filename.main`) — writes it only as a full rewrite
of the entire serialized table routed through the atomic writer; the
one exception is the `generate_per_bag_ingest` entry point, which
appends rows to the master CSV incrementally. -/
theorem C8_amended_master_writes (existing : List Row)
    (manifests : String → List ManifestLine) (files : List ScanFile)
    (source now root : String) (dryRun : Bool) :
    ((ingestRun existing manifests files source now root dryRun).masterWrite = none ∨
      (ingestRun existing manifests files source now root dryRun).masterWrite =
        some (MasterWrite.atomicRewrite
          (ingestRun existing manifests files source now root dryRun).master)) ∧
    (∀ t : List Row, fixPassWrite t = MasterWrite.atomicRewrite (fixPass t) ∧
      isFullAtomicRewrite (fixPassWrite t) = true) ∧
    (∀ rows : List Row, migrateMasterOp rows =
        MasterWrite.atomicRewrite (stableSortRows (dedupBySha rows)) ∧
      isFullAtomicRewrite (migrateMasterOp rows) = true) ∧
    (∀ t : List Row, repairMasterOp t =
        MasterWrite.atomicRewrite (t.map repairRow) ∧
      isFullAtomicRewrite (repairMasterOp t) = true) ∧
    (∀ (old : List PerBagRow) (row : PerBagRow),
      append_row_to_csv old row = old ++ [row] ∧
        isFullAtomicRewrite (perBagMasterOp row) = false) := by
  refine ⟨?_, fun t => ⟨rfl, rfl⟩, fun rows => ⟨rfl, rfl⟩,
    fun t => ⟨rfl, rfl⟩, fun old row => ⟨rfl, rfl⟩⟩
  simp only [ingestRun]
  by_cases h : (newRowsOf existing source now files).isEmpty
  · simp [h]
  · by_cases hd : dryRun <;> simp [h, hd]

/-- C5 (confirmed): the merge concatenates existing rows before incoming
rows and deduplicates by digest keeping the first occurrence: whenever
some existing record carries a digest, the survivor for that digest is
the first existing record with it, unchanged and unique; and for two
incoming records of identical digest but different filenames over a
table without that digest, exactly one record survives — the one
processed first, carrying its filename. -/
theorem C5_merge_keep_first (existing incoming : List Row) :
    (∀ s, shaPresent existing s = true →
        (merge existing incoming).find? (fun r => r.sha256 == s) =
          existing.find? (fun r => r.sha256 == s) ∧
        (merge existing incoming).countP (fun r => r.sha256 == s) = 1) ∧
    (∀ r1 r2 : Row, r1.filename ≠ r2.filename → r1.sha256 = r2.sha256 →
        shaPresent existing r1.sha256 = false →
        (merge existing [r1, r2]).countP (fun r => r.sha256 == r1.sha256) = 1 ∧
        (merge existing [r1, r2]).find? (fun r => r.sha256 == r1.sha256) =
          some r1) := by
  have hcount : ∀ (inc : List Row) (s : String),
      (∃ r ∈ existing ++ inc, r.sha256 = s) →
      (merge existing inc).countP (fun r => r.sha256 == s) = 1 := by
    intro inc s hmem
    rw [countSha_eq_count]
    have hnd := (dedupByShaAux_nodup (existing ++ inc) []).1
    have hm : ∃ r ∈ dedupBySha (existing ++ inc), r.sha256 = s :=
      (dedupBySha_sha_mem (existing ++ inc)).mpr hmem
    rcases hm with ⟨r, hr, he⟩
    have : s ∈ (dedupBySha (existing ++ inc)).map Row.sha256 :=
      List.mem_map.mpr ⟨r, hr, he⟩
    exact List.count_eq_one_of_mem hnd this
  constructor
  · intro s hs
    have hmem := shaPresent_iff.mp hs
    constructor
    · rw [merge, dedupBySha, dedupByShaAux_find? (existing ++ incoming) [] (by simp),
        List.find?_append]
      have hsome : (existing.find? (fun r => r.sha256 == s)).isSome := by
        rw [List.find?_isSome]
        rcases hmem with ⟨r, hr, he⟩
        exact ⟨r, hr, by simp [he]⟩
      rcases Option.isSome_iff_exists.mp hsome with ⟨r₀, hr₀⟩
      rw [hr₀]
      rfl
    · rcases hmem with ⟨r, hr, he⟩
      exact hcount incoming s ⟨r, List.mem_append_left incoming hr, he⟩
  · intro r1 r2 _ _ hnot
    constructor
    · exact hcount [r1, r2] r1.sha256
        ⟨r1, List.mem_append_right existing (List.mem_cons_self r1 [r2]), rfl⟩
    · rw [merge, dedupBySha, dedupByShaAux_find? (existing ++ [r1, r2]) [] (by simp),
        find?_append_of_none]
      · simp [List.find?_cons]
      · intro r hr
        simp only [beq_eq_false_iff_ne, ne_eq]
        intro he
        have htrue : shaPresent existing r1.sha256 = true :=
          shaPresent_iff.mpr ⟨r, hr, he⟩
        rw [hnot] at htrue
        exact Bool.false_ne_true htrue

/-- C5 (witness): concrete instance — `sampleRowA` and `sampleRowB`
share a digest and differ in filename; over an empty existing table the
merge keeps exactly `sampleRowA`. -/
theorem C5_merge_keep_first_witness :
    (merge [] [sampleRowA, sampleRowB]).countP
        (fun r => r.sha256 == sampleRowA.sha256) = 1 ∧
      (merge [] [sampleRowA, sampleRowB]).find?
        (fun r => r.sha256 == sampleRowA.sha256) = some sampleRowA :=
  (C5_merge_keep_first [] []).2 sampleRowA sampleRowB
    (by decide) rfl rfl

/-- Position of the first maximal digit run: on a string decomposed as a
digit-free prefix, a nonempty digit run, and a tail not starting with a
digit, the regex extraction returns exactly the run. -/
theorem firstDigitRun_of_decomp {a d b : List Char}
    (ha : ∀ c ∈ a, c.isDigit = false) (hd0 : d ≠ [])
    (hd : ∀ c ∈ d, c.isDigit = true)
    (hb : ∀ c, b.head? = some c → c.isDigit = false) :
    firstDigitRun (a ++ d ++ b) = some d := by
  induction a with
  | nil =>
    cases d with
    | nil => exact absurd rfl hd0
    | cons c0 d' =>
      have hc0 : c0.isDigit = true := hd c0 (List.mem_cons_self c0 d')
      simp only [List.nil_append, List.cons_append, firstDigitRun, hc0, if_true,
        List.append_eq]
      rw [takeWhile_append_all b (fun c hc => hd c (List.mem_cons_of_mem c0 hc)),
        takeWhile_eq_nil_of_head hb, List.append_nil]
  | cons x a' ih =>
    have hx : x.isDigit = false := ha x (List.mem_cons_self x a')
    simp only [List.cons_append, firstDigitRun, hx, Bool.false_eq_true, if_false]
    exact ih (fun c hc => ha c (List.mem_cons_of_mem x hc))

/-- On a nonempty all-digit string the extraction returns the whole
string. -/
theorem firstDigitRun_all {d : List Char} (hd0 : d ≠ [])
    (hd : ∀ c ∈ d, c.isDigit = true) : firstDigitRun d = some d := by
  have := @firstDigitRun_of_decomp [] d [] (by simp) hd0 hd (by simp)
  simpa using this

/-- Stripping a trailing `.0` from an all-digit string is a no-op. -/
theorem stripDotZero_of_digits {s : List Char}
    (h : ∀ c ∈ s, c.isDigit = true) : stripDotZero s = s := by
  unfold stripDotZero
  split
  · next hc =>
    exfalso
    have hdot : '.' ∈ s := by
      have hm : '.' ∈ s.drop (s.length - 2) := by
        rw [hc.2]
        exact List.mem_cons_self '.' ['0']
      exact List.mem_of_mem_drop hm
    have := h '.' hdot
    simp at this
  · rfl

/-- Every output of `normSeq` has the canonical shape
`zfill2 (str (int d))`. -/
theorem normSeq_shape (s : String) :
    ∃ n, normSeq s = String.mk (zfill2 (natRender n)) := ⟨_, rfl⟩

/-- Normalizing a string already in canonical zero-filled decimal shape
returns it unchanged. -/
theorem normSeq_of_canonical (n : Nat) :
    normSeq (String.mk (zfill2 (natRender n))) = String.mk (zfill2 (natRender n)) := by
  have hdig : ∀ c ∈ zfill2 (natRender n), c.isDigit = true :=
    zfill2_digits natRender_digits
  unfold normSeq
  rw [show (String.mk (zfill2 (natRender n))).data = zfill2 (natRender n) from rfl]
  rw [stripDotZero_of_digits hdig, firstDigitRun_all (zfill2_ne_nil _) hdig]
  simp only [Option.getD_some]
  rw [natOfDigits_zfill2, natOfDigits_natRender]

/-- The sequence normalization is idempotent. -/
theorem normSeq_idem (s : String) : normSeq (normSeq s) = normSeq s := by
  obtain ⟨n, hn⟩ := normSeq_shape s
  rw [hn, normSeq_of_canonical]

/-- The normalized sequence always has at least two characters. -/
theorem normSeq_length (s : String) : 2 ≤ (normSeq s).length := by
  obtain ⟨n, hn⟩ := normSeq_shape s
  rw [hn]
  exact zfill2_length _

/-- One row of the repair pass is idempotent. -/
theorem fixRow_idem (r : Row) : fixRow (fixRow r) = fixRow r := by
  cases r with
  | mk id filename model viewtype sequence width height filesize sha256
      processed_at source uid smp notes =>
    simp only [fixRow, normSeq_idem]
    by_cases h : (decide (0 < model.length) && decide (0 < viewtype.length) &&
        decide (0 < (normSeq sequence).length)) = true
    · simp [h]
    · simp [h]

/-- C9 (confirmed): the repair pass maps the sequence values `"3"` and
`"3.0"` (and the int `3`, rendered `"3"` by `astype(str)`) to `"03"`;
in general a value whose first digit run after stripping a trailing
`.0` is `d` normalizes to the two-zero-filled decimal rendering of
`int(d)`; and on each row the pass preserves the digest, stores the
normalized sequence, and — whenever model and viewtype are nonempty
(the normalized sequence is never empty) — rebuilds `id` as
`{model}_{viewtype}_{sequence}_{first eight digest characters}`. -/
theorem C9_sequence_repair :
    normSeq "3" = "03" ∧ normSeq "3.0" = "03" ∧
    normSeq (String.mk (natRender 3)) = "03" ∧
    (∀ (s : String) (a d b : List Char),
        stripDotZero s.data = a ++ d ++ b →
        (∀ c ∈ a, c.isDigit = false) → d ≠ [] →
        (∀ c ∈ d, c.isDigit = true) →
        (∀ c, b.head? = some c → c.isDigit = false) →
        normSeq s = String.mk (zfill2 (natRender (natOfDigits d)))) ∧
    (∀ r : Row, (fixRow r).sha256 = r.sha256 ∧
        (fixRow r).sequence = normSeq r.sequence ∧
        (0 < r.model.length → 0 < r.viewtype.length →
          (fixRow r).id = r.model ++ "_" ++ r.viewtype ++ "_" ++
            normSeq r.sequence ++ "_" ++ r.sha256.take 8)) := by
  refine ⟨by decide, by decide, by decide, ?_, ?_⟩
  · intro s a d b hsplit ha hd0 hd hb
    unfold normSeq
    rw [hsplit, firstDigitRun_of_decomp ha hd0 hd hb]
    rfl
  · intro r
    refine ⟨rfl, rfl, ?_⟩
    intro hm hv
    have h3 : 0 < (normSeq r.sequence).length := by
      have := normSeq_length r.sequence
      omega
    simp only [fixRow, decide_eq_true hm, decide_eq_true hv,
      decide_eq_true h3, Bool.and_self, if_true]

/-- C9 (witness): on a concrete row with sequence `"3.0"`, model
`"BA2037-089"`, viewtype `"front"` and digest `"0123456789abcdef"`, the
repair pass rebuilds `id` to `"BA2037-089_front_03_01234567"` and keeps
the digest. -/
theorem C9_sequence_repair_witness :
    (fixRow sampleRowA).id = "BA2037-089_front_03_01234567" ∧
      (fixRow sampleRowA).sha256 = sampleRowA.sha256 := by
  have h := (C9_sequence_repair.2.2.2.2 sampleRowA).2.2 (by decide) (by decide)
  refine ⟨?_, (C9_sequence_repair.2.2.2.2 sampleRowA).1⟩
  rw [h]
  decide

/-- C10 (confirmed): the repair pass of `fix_sequence_and_id` is
idempotent: running it again on its own output (re-normalizing an
already-normalized sequence, rebuilding an already-rebuilt id, and
re-sorting a sorted table) reproduces the same table, hence the same
file. -/
theorem C10_fix_pass_idempotent (t : List Row) :
    fixPass (fixPass t) = fixPass t := by
  unfold fixPass stableSortRows
  have hmap : (List.insertionSort rowLe (t.map fixRow)).map fixRow =
      List.insertionSort rowLe (t.map fixRow) := by
    apply map_eq_self_of_mem
    intro x hx
    have hx' : x ∈ t.map fixRow := (List.mem_insertionSort rowLe).mp hx
    rcases List.mem_map.mp hx' with ⟨y, _, hy⟩
    rw [← hy, fixRow_idem]
  rw [hmap]
  exact (List.sorted_insertionSort rowLe _).insertionSort_eq

theorem parse_schema_some {s : String} {g v : List Char} {n : Nat}
    (h : parseSchemaChars s.data = some (g, v, n)) :
    parse_schema s = (String.mk g, String.mk v, n) := by
  unfold parse_schema
  rw [h]

theorem parse_schema_none {s : String} (h : parseSchemaChars s.data = none) :
    parse_schema s = ("", "unknown", 0) := by
  unfold parse_schema
  rw [h]

/-- Soundness of the character-level matcher on a decomposed input: on
`group ++ "_" ++ view ++ "_" ++ two digits ++ "." ++ ext` with the
case-insensitive side conditions, the matcher succeeds and returns the
uppercased group, lowercased view and the sequence value. -/
theorem parseSchemaChars_of_decomp {g v : List Char} {n1 n2 : Char}
    {e : List Char} (l : List Char)
    (hl : l = g ++ '_' :: (v ++ '_' :: n1 :: n2 :: '.' :: e))
    (hg : GroupCI g) (hv0 : v ≠ []) (hv : ∀ c ∈ v, c.isAlpha = true)
    (hn1 : n1.isDigit = true) (hn2 : n2.isDigit = true)
    (he : isExt e = true) :
    parseSchemaChars l =
      some (g.map Char.toUpper, v.map Char.toLower,
        digitVal n1 * 10 + digitVal n2) := by
  obtain ⟨b, a, c1, c2, c3, c4, c5, c6, c7, hgeq, hb, ha,
    h1, h2, h3, h4, h5, h6, h7⟩ := hg
  subst hgeq
  subst hl
  have hrest : (v ++ '_' :: n1 :: n2 :: '.' :: e).takeWhile Char.isAlpha = v := by
    rw [takeWhile_append_all _ hv,
      takeWhile_eq_nil_of_head (fun c hc => by
        rw [show c = '_' from (Option.some.inj hc).symm]; rfl),
      List.append_nil]
  have hdrop : (v ++ '_' :: n1 :: n2 :: '.' :: e).dropWhile Char.isAlpha =
      '_' :: n1 :: n2 :: '.' :: e := by
    rw [dropWhile_append_all _ hv,
      dropWhile_eq_self_of_head (fun c hc => by
        rw [show c = '_' from (Option.some.inj hc).symm]; rfl)]
  have hgok : (groupOk b a c1 c2 c3 c4 '-' c5 c6 c7 && ('_' == '_')) = true := by
    rcases hb with rfl | rfl <;> rcases ha with rfl | rfl <;>
      simp [groupOk, h1, h2, h3, h4, h5, h6, h7]
  have hve : v.isEmpty = false := by
    cases v with
    | nil => exact absurd rfl hv0
    | cons c v' => rfl
  simp only [List.cons_append, List.nil_append, parseSchemaChars, hgok, if_true,
    hrest, hdrop, hve, Bool.false_eq_true, if_false, hn1, hn2, he]
  simp

/-- Inversion of the character-level matcher: any successful match
exhibits the case-insensitive decomposition of the input. -/
theorem parseSchemaChars_inv {l : List Char}
    {out : List Char × List Char × Nat}
    (h : parseSchemaChars l = some out) :
    ∃ g v n1 n2 e,
      l = g ++ '_' :: (v ++ '_' :: n1 :: n2 :: '.' :: e) ∧ GroupCI g ∧
        v ≠ [] ∧ (∀ c ∈ v, c.isAlpha = true) ∧ n1.isDigit = true ∧
        n2.isDigit = true ∧ isExt e = true ∧
        out = (g.map Char.toUpper, v.map Char.toLower,
          digitVal n1 * 10 + digitVal n2) := by
  unfold parseSchemaChars at h
  split at h
  · next b a c1 c2 c3 c4 hy c5 c6 c7 u rest =>
    split at h
    · next hcond =>
      split at h
      · next hve => exact absurd h (by simp)
      · next hve =>
        split at h
        · next u2 n1 n2 dot ext heq =>
          split at h
          · next hcond2 =>
            simp only [Bool.and_eq_true, beq_iff_eq] at hcond hcond2
            obtain ⟨hgok, hu⟩ := hcond
            obtain ⟨⟨⟨⟨hu2, hd1⟩, hd2⟩, hdot⟩, hext⟩ := hcond2
            subst hu hu2 hdot
            simp only [groupOk, Bool.and_eq_true, Bool.or_eq_true,
              beq_iff_eq] at hgok
            obtain ⟨⟨⟨⟨⟨⟨⟨⟨⟨hb, ha⟩, h1⟩, h2⟩, h3⟩, h4⟩, hhy⟩, h5⟩, h6⟩,
              h7⟩ := hgok
            subst hhy
            refine ⟨[b, a, c1, c2, c3, c4, '-', c5, c6, c7],
              rest.takeWhile Char.isAlpha, n1, n2, ext, ?_,
              ⟨b, a, c1, c2, c3, c4, c5, c6, c7, rfl, hb, ha,
                h1, h2, h3, h4, h5, h6, h7⟩, ?_, ?_, hd1, hd2, hext, ?_⟩
            · have hsplit : rest =
                  rest.takeWhile Char.isAlpha ++ rest.dropWhile Char.isAlpha := by
                rw [List.takeWhile_append_dropWhile]
              rw [heq] at hsplit
              simp only [List.cons_append, List.nil_append]
              rw [← hsplit]
            · intro hnil
              rw [hnil] at hve
              exact hve rfl
            · intro c hc
              exact List.mem_takeWhile_imp hc
            · exact (Option.some.inj h).symm
          · exact absurd h (by simp)
        · exact absurd h (by simp)
    · next => exact absurd h (by simp)
  · exact absurd h (by simp)

/-- C7 (counterexample): the claim fails as stated.  The schema regex
carries `re.I`, so `"BA2037-089_FRONT_01.jpg"` — whose view part is not
lowercase-only — still parses, to `("BA2037-089", "front", 1)`, instead
of yielding the sentinel required by the claim's case-sensitive reading
(shown by `schemaStrictClaim`, the claim's own matching predicate,
rejecting it while accepting the lowercase spelling). -/
theorem C7_counterexample :
    parse_schema "BA2037-089_FRONT_01.jpg" = ("BA2037-089", "front", 1) ∧
      schemaStrictClaim "BA2037-089_FRONT_01.jpg" = false ∧
      schemaStrictClaim "BA2037-089_front_01.jpg" = true := by
  refine ⟨by decide, by decide, by decide⟩

/-- C7 (amended): `parse_schema` never raises (it is a total function);
it returns a non-sentinel triple exactly when the name matches
`GROUP_view_NN.ext` read case-insensitively — group `BA####-###` with
`B`/`A` in either case, view a nonempty run of letters of either case,
sequence exactly two digits, extension in `{jpg, jpeg, png, webp}` in
either case — and on a match it returns the uppercased group, the
lowercased view and the numeric sequence; on any other input it returns
`("", "unknown", 0)`.  In particular `"BA2037-089_front_01.jpg"` parses
to `("BA2037-089", "front", 1)` and `"random.jpg"` yields the
sentinel. -/
theorem C7_parse_schema_amended :
    (∀ s, parse_schema s ≠ ("", "unknown", 0) ↔ SchemaCIMatch s) ∧
    (∀ (s : String) (g v : List Char) (n1 n2 : Char) (e : List Char),
        s.data = g ++ '_' :: (v ++ '_' :: n1 :: n2 :: '.' :: e) →
        GroupCI g → v ≠ [] → (∀ c ∈ v, c.isAlpha = true) →
        n1.isDigit = true → n2.isDigit = true → isExt e = true →
        parse_schema s = (String.mk (g.map Char.toUpper),
          String.mk (v.map Char.toLower), digitVal n1 * 10 + digitVal n2)) ∧
    parse_schema "BA2037-089_front_01.jpg" = ("BA2037-089", "front", 1) ∧
    parse_schema "random.jpg" = ("", "unknown", 0) := by
  have hpos : ∀ (s : String) (g v : List Char) (n1 n2 : Char) (e : List Char),
      s.data = g ++ '_' :: (v ++ '_' :: n1 :: n2 :: '.' :: e) →
      GroupCI g → v ≠ [] → (∀ c ∈ v, c.isAlpha = true) →
      n1.isDigit = true → n2.isDigit = true → isExt e = true →
      parse_schema s = (String.mk (g.map Char.toUpper),
        String.mk (v.map Char.toLower), digitVal n1 * 10 + digitVal n2) := by
    intro s g v n1 n2 e hdecomp hg hv0 hv hn1 hn2 he
    exact parse_schema_some
      (parseSchemaChars_of_decomp s.data hdecomp hg hv0 hv hn1 hn2 he)
  refine ⟨?_, hpos, by decide, by decide⟩
  intro s
  constructor
  · intro hne
    cases hp : parseSchemaChars s.data with
    | none => exact absurd (parse_schema_none hp) hne
    | some out =>
      obtain ⟨g, v, n1, n2, e, hdecomp, hg, hv0, hv, hn1, hn2, hext, -⟩ :=
        parseSchemaChars_inv hp
      exact ⟨g, v, n1, n2, e, hdecomp, hg, hv0, hv, hn1, hn2, hext⟩
  · intro hm
    obtain ⟨g, v, n1, n2, e, hdecomp, hg, hv0, hv, hn1, hn2, hext⟩ := hm
    rw [hpos s g v n1 n2 e hdecomp hg hv0 hv hn1 hn2 hext]
    intro hcontra
    obtain ⟨b, a, c1, c2, c3, c4, c5, c6, c7, hgeq, -⟩ := hg
    have h1 : String.mk (g.map Char.toUpper) = "" := congrArg Prod.fst hcontra
    have h2 : g.map Char.toUpper = [] := congrArg String.data h1
    rw [hgeq] at h2
    simp at h2

/-- C7 (amended, witness): the amended characterization applied at the
concrete decomposition of `"BA2037-089_back_02.jpeg"`. -/
theorem C7_parse_schema_amended_witness :
    parse_schema "BA2037-089_back_02.jpeg" = ("BA2037-089", "back", 2) := by
  have h := C7_parse_schema_amended.2.1 "BA2037-089_back_02.jpeg"
    ['B', 'A', '2', '0', '3', '7', '-', '0', '8', '9'] ['b', 'a', 'c', 'k']
    '0' '2' ['j', 'p', 'e', 'g'] (by decide)
    ⟨'B', 'A', '2', '0', '3', '7', '0', '8', '9', rfl, Or.inl rfl, Or.inl rfl,
      rfl, rfl, rfl, rfl, rfl, rfl, rfl⟩
    (by decide) (by decide) rfl rfl (by decide)
  rw [h]
  decide

theorem shaPresent_dedupBySha (t : List Row) (s : String) :
    shaPresent (dedupBySha t) s = shaPresent t s := by
  rw [Bool.eq_iff_iff, shaPresent_iff, shaPresent_iff]
  exact dedupBySha_sha_mem t

theorem shaPresent_sort (t : List Row) (s : String) :
    shaPresent (stableSortRows t) s = shaPresent t s := by
  rw [Bool.eq_iff_iff, shaPresent_iff, shaPresent_iff]
  constructor
  · rintro ⟨r, hr, he⟩
    exact ⟨r, (List.mem_insertionSort rowLe).mp hr, he⟩
  · rintro ⟨r, hr, he⟩
    exact ⟨r, (List.mem_insertionSort rowLe).mpr hr, he⟩

theorem shaPresent_append (t u : List Row) (s : String) :
    shaPresent (t ++ u) s = (shaPresent t s || shaPresent u s) := by
  simp [shaPresent, List.any_append]

/-- A run that discovers no new rows returns without touching
anything. -/
theorem ingestRun_of_no_new (existing : List Row)
    (manifests : String → List ManifestLine) (files : List ScanFile)
    (source now root : String) (dryRun : Bool)
    (h : newRowsOf existing source now files = []) :
    ingestRun existing manifests files source now root dryRun =
      { master := existing, manifests := manifests, newRows := 0,
        masterWrite := none } := by
  unfold ingestRun
  rw [h]
  rfl

/-- The master table written by a non-dry run that found new rows: the
stable sort of the merge of the loaded table with the stamped new
rows. -/
theorem ingestRun_master_of_new (existing : List Row)
    (manifests : String → List ManifestLine) (files : List ScanFile)
    (source now root : String)
    (h : (newRowsOf existing source now files).isEmpty = false) :
    (ingestRun existing manifests files source now root false).master =
      stableSortRows (merge existing
        ((newRowsOf existing source now files).map (fun r =>
          { r with sha256_manifest_path :=
              if (modelsOf (pairsAll (newRowsOf existing source now files)
                  files)).contains r.model
              then manifestPath root r.model else "" }))) := by
  unfold ingestRun
  simp only [h, Bool.false_eq_true, if_false]

/-- After a non-dry ingest run, the digest of every scanned file whose
name conforms to the schema is present in the persisted master
table. -/
theorem ingestRun_covers (existing : List Row)
    (manifests : String → List ManifestLine) (files : List ScanFile)
    (source now root : String) :
    ∀ f ∈ files, (parse_schema f.name).1 ≠ "" →
      shaPresent
        (ingestRun existing manifests files source now root false).master
        f.sha = true := by
  intro f hf hp
  by_cases hsha : shaPresent existing f.sha = true
  · by_cases hnew : (newRowsOf existing source now files).isEmpty = true
    · rw [ingestRun_of_no_new existing manifests files source now root false
        (List.isEmpty_iff.mp hnew)]
      exact hsha
    · rw [ingestRun_master_of_new existing manifests files source now root
        (Bool.eq_false_iff.mpr hnew)]
      rw [shaPresent_sort, merge, shaPresent_dedupBySha, shaPresent_append,
        hsha, Bool.true_or]
  · have hmem : mkIngestRow source now f ∈ newRowsOf existing source now files := by
      unfold newRowsOf
      apply List.mem_filterMap.mpr
      refine ⟨f, hf, ?_⟩
      rw [if_neg (by simpa using hp), if_neg (by simpa using hsha)]
    have hnew : (newRowsOf existing source now files).isEmpty = false := by
      cases hq : newRowsOf existing source now files with
      | nil => rw [hq] at hmem; cases hmem
      | cons r rest => rfl
    rw [ingestRun_master_of_new existing manifests files source now root hnew]
    rw [shaPresent_sort, merge, shaPresent_dedupBySha, shaPresent_append]
    have hright : shaPresent
        ((newRowsOf existing source now files).map (fun r =>
          { r with sha256_manifest_path :=
              if (modelsOf (pairsAll (newRowsOf existing source now files)
                  files)).contains r.model
              then manifestPath root r.model else "" })) f.sha = true := by
      rw [shaPresent_iff]
      exact ⟨_, List.mem_map_of_mem _ hmem, rfl⟩
    rw [hright, Bool.or_true]

/-- C1 (confirmed): repeating a (non-dry) ingest run over an unchanged
scan produces zero new records, leaves the persisted master table
exactly as the first run left it (no write is performed at all), and
leaves every group's checksum manifest unchanged (zero new lines). -/
theorem C1_ingest_idempotent (existing : List Row)
    (manifests : String → List ManifestLine) (files : List ScanFile)
    (source now root source2 now2 root2 : String) :
    (ingestRun (ingestRun existing manifests files source now root false).master
        (ingestRun existing manifests files source now root false).manifests
        files source2 now2 root2 false).newRows = 0 ∧
    (ingestRun (ingestRun existing manifests files source now root false).master
        (ingestRun existing manifests files source now root false).manifests
        files source2 now2 root2 false).master =
      (ingestRun existing manifests files source now root false).master ∧
    (ingestRun (ingestRun existing manifests files source now root false).master
        (ingestRun existing manifests files source now root false).manifests
        files source2 now2 root2 false).manifests =
      (ingestRun existing manifests files source now root false).manifests ∧
    (ingestRun (ingestRun existing manifests files source now root false).master
        (ingestRun existing manifests files source now root false).manifests
        files source2 now2 root2 false).masterWrite = none := by
  have hempty : newRowsOf
      (ingestRun existing manifests files source now root false).master
      source2 now2 files = [] := by
    unfold newRowsOf
    rw [List.filterMap_eq_nil_iff]
    intro f hf
    by_cases hp : (parse_schema f.name).1 = ""
    · rw [if_pos (by simpa using hp)]
    · rw [if_neg (by simpa using hp),
        if_pos (ingestRun_covers existing manifests files source now root
          f hf hp)]
  rw [ingestRun_of_no_new _ _ _ _ _ _ _ hempty]
  exact ⟨rfl, rfl, rfl, rfl⟩

/-- C3 (code-bug evaluation): a dry-run ingest over a scan containing
one new conforming file appends a line to the group's checksum manifest
anyway — the manifest writes happen before the `--dry-run` check in
`bag_ingest.main` — and only the master-table write is skipped.  This
contradicts the claim (and the script's own `--dry-run` help text,
"Preview only; no writes"). -/
theorem C3_dry_run_still_writes_manifest :
    ((ingestRun [] (fun _ => []) [sampleScanA] "local_ingest"
        "2026-01-01T00:00:00+00:00" "/repo" true).masterWrite = none) ∧
    ((ingestRun [] (fun _ => []) [sampleScanA] "local_ingest"
        "2026-01-01T00:00:00+00:00" "/repo" true).newRows = 1) ∧
    ((ingestRun [] (fun _ => []) [sampleScanA] "local_ingest"
        "2026-01-01T00:00:00+00:00" "/repo" true).manifests "BA2037-089" =
      [("d100000000000000",
        "data/02_Models/BA2037-089/photos/BA2037-089_front_01.jpg")]) := by
  refine ⟨rfl, rfl, by decide⟩

end RPM
